import Mathlib

/-!
Verification of the domain-resolution registry of the ezpaarse repository.

The definitions below are a shallow embedding of `src/lib/parserlist.js`
(the async/class implementation of `ParserList`, which is the module actually
exported).  JavaScript `Map` objects are embedded as insertion-ordered
association lists, `Set` objects as duplicate-free lists, promises that may
reject as `Except`, and the filesystem as explicit input data.  Source
comments next to each definition point to the construct being embedded.
-/

set_option autoImplicit false

namespace ParserListV

/-! ### Association-list embedding of JavaScript `Map` (insertion ordered) -/

/-- `Map.prototype.get`: first (and only) entry with the given key. -/
def mapGet {β : Type} : List (String × β) → String → Option β
  | [], _ => none
  | (k', v) :: rest, k => if k' = k then some v else mapGet rest k

/-- `Map.prototype.has`. -/
def mapHas {β : Type} (m : List (String × β)) (k : String) : Bool :=
  (mapGet m k).isSome

/-- `Map.prototype.set`: replaces in place (keeping insertion order) or appends. -/
def mapSet {β : Type} : List (String × β) → String → β → List (String × β)
  | [], k, v => [(k, v)]
  | (k', v') :: rest, k, v =>
    if k' = k then (k, v) :: rest else (k', v') :: mapSet rest k v

/-- `Map.prototype.delete`. -/
def mapDelete {β : Type} : List (String × β) → String → List (String × β)
  | [], _ => []
  | (k', v') :: rest, k => if k' = k then rest else (k', v') :: mapDelete rest k

/-! ### Data model -/

/-- The parser binding object built in `addDomainsOf`:
`{ file, platform, platformName, publisherName }`. -/
structure Parser where
  file : String
  platform : String
  platformName : Option String
  publisherName : Option String
  deriving Repr, DecidableEq

/-- A value of the `domains` map: either the literal `false`
(domain confirmed unresolved) or an array of parser bindings. -/
inductive DomEntry where
  | unresolved
  | parsers (l : List Parser)
  deriving Repr, DecidableEq

/-- A value of the `platforms` map: `{ parser, domains: Set }`. -/
structure PlatformEntry where
  parser : Parser
  domains : List String
  deriving Repr, DecidableEq

/-- The mutable state of the `ParserList` instance.
`domainProps` records the string-keyed plain properties that
`get` assigns onto the `domains` Map *object* (`this.domains[domain] = false`);
such properties are invisible to `Map.has` / `Map.get`. -/
structure ParserList where
  domains : List (String × DomEntry)
  platforms : List (String × PlatformEntry)
  missQueue : List String
  domainProps : List String
  deriving Repr, DecidableEq

/-- The freshly constructed (or freshly reset) registry. -/
def initState : ParserList :=
  { domains := [], platforms := [], missQueue := [], domainProps := [] }

/-! ### Registry operations (`src/lib/parserlist.js`) -/

/-- `addMiss(domain)`: mark a domain as unknown if absent; returns whether it was new. -/
def addMiss (s : ParserList) (domain : String) : ParserList × Bool :=
  if mapHas s.domains domain then (s, false)
  else ({ s with domains := mapSet s.domains domain DomEntry.unresolved }, true)

/-- `add(domain, parser)`.  Returns `none` when the code would throw:
`this.domains.get(domain).push(parser)` raises a TypeError if the stored
entry is the literal `false`, and the wildcard row is unreachable because
both keys were inserted just above. -/
def add (s : ParserList) (domain : String) (parser : Parser) : Option ParserList :=
  let doms := if mapHas s.domains domain then s.domains
              else mapSet s.domains domain (DomEntry.parsers [])
  let plats := if mapHas s.platforms parser.platform then s.platforms
               else mapSet s.platforms parser.platform ⟨parser, []⟩
  match mapGet plats parser.platform, mapGet doms domain with
  | some pe, some (DomEntry.parsers l) =>
    if pe.domains.contains domain then
      some { s with domains := doms, platforms := plats }
    else
      some { s with
        domains := mapSet doms domain (DomEntry.parsers (l ++ [parser])),
        platforms := mapSet plats parser.platform ⟨pe.parser, pe.domains ++ [domain]⟩ }
  | some pe, some DomEntry.unresolved =>
    if pe.domains.contains domain then
      some { s with domains := doms, platforms := plats }
    else none
  | _, _ => none

/-- `get(domain, write)`.  Returns the stored entry when the Map has the key
(the dead second disjunct `this.domains.get(domain) === false` is kept as in
the source); otherwise assigns a plain property on the Map object, enqueues
the miss unless `write === false`, and returns `false`. -/
def get (s : ParserList) (domain : String) (write : Bool) : DomEntry × ParserList :=
  if mapHas s.domains domain ∨ mapGet s.domains domain = some DomEntry.unresolved then
    ((mapGet s.domains domain).getD DomEntry.unresolved, s)
  else
    let s1 := { s with domainProps :=
      if s.domainProps.contains domain then s.domainProps
      else s.domainProps ++ [domain] }
    let s2 := if write then { s1 with missQueue := s1.missQueue ++ [domain] } else s1
    (DomEntry.unresolved, s2)

/-- `getFromPlatform(name)`. -/
def getFromPlatform (s : ParserList) (name : String) : Option Parser :=
  (mapGet s.platforms name).map PlatformEntry.parser

/-- `getDomainsOf(platform)`. -/
def getDomainsOf (s : ParserList) (platform : String) : Option PlatformEntry :=
  mapGet s.platforms platform

/-- `sizeOf(type)`. -/
def sizeOf (s : ParserList) (type : String) : Option Nat :=
  if type = "domains" then some s.domains.length
  else if type = "platforms" then some s.platforms.length
  else none

/-- `clearPlatform(name)`: delete every owned domain from the `domains` map,
then delete the platform entry; no-op for an unknown platform. -/
def clearPlatform (s : ParserList) (name : String) : ParserList :=
  match mapGet s.platforms name with
  | none => s
  | some pe =>
    { s with
      domains := pe.domains.foldl (fun m d => mapDelete m d) s.domains,
      platforms := mapDelete s.platforms name }

/-! ### String helpers (JavaScript semantics, written over `String.data`) -/

/-- Helper for `splitLines`, accumulating the current line in reverse. -/
def splitLinesAux (cur : List Char) : List Char → List String
  | [] => [String.mk cur.reverse]
  | c :: cs =>
    if c = '\n' then String.mk cur.reverse :: splitLinesAux [] cs
    else splitLinesAux (c :: cur) cs

/-- JavaScript `content.split('\n')`; the empty string yields `[""]`. -/
def splitLines (s : String) : List String :=
  splitLinesAux [] s.data

/-- Whitespace characters removed by JavaScript `String.prototype.trim`
(restricted to those that can occur in the ledger). -/
def isWs (c : Char) : Bool :=
  c = ' ' || c = '\t' || c = '\n' || c = '\r'

/-- JavaScript `s.trim()`. -/
def jsTrim (s : String) : String :=
  String.mk (((s.data.dropWhile isWs).reverse.dropWhile isWs).reverse)

/-- JavaScript `lines.join('\n')`. -/
def joinNl : List String → String
  | [] => ""
  | [x] => x
  | x :: xs => x ++ "\n" ++ joinNl xs

/-- JavaScript `s.startsWith('.')`. -/
def startsWithDot (s : String) : Bool :=
  match s.data with
  | c :: _ => c = '.'
  | [] => false

/-- Code-unit lexicographic string order used by the JavaScript comparator
(characters compared through their code points). -/
def charListLe : List Char → List Char → Bool
  | [], _ => true
  | _ :: _, [] => false
  | a :: as, b :: bs =>
    if a.toNat = b.toNat then charListLe as bs else decide (a.toNat < b.toNat)

/-- The comparator of `init`'s reconciliation:
`(a, b) => (a.toLowerCase() > b.toLowerCase() ? 1 : -1)`, read as
an ascending case-insensitive order. -/
def lowerLe (a b : String) : Bool :=
  charListLe (a.data.map Char.toLower) (b.data.map Char.toLower)

/-- Insert into a list sorted by `lowerLe`. -/
def insertLower (x : String) : List String → List String
  | [] => [x]
  | y :: ys => if lowerLe x y then x :: y :: ys else y :: insertLower x ys

/-- `lines.sort(comparator)`: ascending case-insensitive sort. -/
def sortByLower : List String → List String
  | [] => []
  | x :: xs => insertLower x (sortByLower xs)

/-- Ascending in the case-insensitive order (the sortedness that reconciliation
is meant to establish). -/
def sortedLower (l : List String) : Prop :=
  l.Pairwise (fun a b => lowerLe a b = true)

/-- JavaScript truthiness of an optional string
(`undefined` and the empty string are falsy). -/
def jsTruthy : Option String → Bool
  | none => false
  | some s => s ≠ ""

/-- Is `c` an ASCII digit (the regex class `[0-9]`). -/
def isDigitCh (c : Char) : Bool :=
  '0' ≤ c && c ≤ '9'

/-- The knowledge-base filename test `/_[0-9]{4}-[0-9]{2}-[0-9]{2}\.txt$/`. -/
def matchesPkb (f : String) : Bool :=
  match f.data.reverse with
  | 't' :: 'x' :: 't' :: '.' :: d2 :: d1 :: '-' :: m2 :: m1 :: '-' :: y4 :: y3 :: y2 :: y1 :: '_' :: _ =>
    isDigitCh d1 && isDigitCh d2 && isDigitCh m1 && isDigitCh m2 &&
    isDigitCh y1 && isDigitCh y2 && isDigitCh y3 && isDigitCh y4
  | _ => false

/-! ### `writeMiss` (the async drain loop of `src/lib/parserlist.js`) -/

/-- One full run of the `writeMiss` drain loop, started on a queue and fed the
success/failure outcome of each successive `fs.appendFile` (`[]` is padded with
successes).  Returns the remaining queue, the lines appended to the ledger
file, and whether the loop finished normally: on a failed append the
`try`/`finally` removes the front element and then the exception propagates
out of the `while` loop, rejecting the `writeMiss` promise. -/
def drainWriteMiss : List String → List Bool → List String → List String × List String × Bool
  | [], _, file => ([], file, true)
  | d :: rest, [], file => drainWriteMiss rest [] (file ++ ["\n" ++ d])
  | d :: rest, o :: outs, file =>
    if o then drainWriteMiss rest outs (file ++ ["\n" ++ d])
    else (rest, file, false)

/-! ### `clearCachedParsers` -/

/-- The list of keys that `for (const { parser } in this.platforms.values())`
iterates over.  JavaScript `for...in` enumerates the enumerable string-keyed
properties of its operand; `this.platforms.values()` is a Map iterator object,
whose own and inherited properties (`next`, the iterator symbol) are all
non-enumerable, so the enumeration is empty no matter what the map holds. -/
def forInKeysOfMapIterator (_platforms : List (String × PlatformEntry)) : List String :=
  []

/-- `clearCachedParsers()`: one `for...in` iteration per enumerated key, each
attempting `delete require.cache[require.resolve(parser.file)]` and swallowing
any failure (`{ parser }` destructured from a string key is `undefined`, so the
body always throws and is caught).  `cache` models `require.cache` as the list
of currently cached resolved files. -/
def clearCachedParsers (s : ParserList) (cache : List String) : List String :=
  (forInKeysOfMapIterator s.platforms).foldl (fun c _ => c) cache

/-! ### `init` and `addDomainsOf` -/

/-- Parsed content of a `manifest.json` (fields used by `addDomainsOf`). -/
structure Manifest where
  name : Option String
  longname : Option String
  publisher_name : Option String
  domains : Option (List String)
  pkbDomains : Option String
  deriving Repr, DecidableEq

/-- The state of a platform's `manifest.json` on disk. -/
inductive ManifestFile where
  | unreadable
  | malformed
  | parsed (m : Manifest)
  deriving Repr, DecidableEq

/-- One entry of the platforms directory, together with the filesystem data
`addDomainsOf` will consult for it.  `stat = none` models `fs.stat` rejecting;
`pkbFiles = none` models `fs.readdir(pkbFolder)` rejecting; `pkbExtract` is
the (opaque) result of the `csvextractor.extract` collaborator on the matched
files, each record being a field-keyed association list. -/
structure PlatformDir where
  name : String
  stat : Option Bool
  manifest : ManifestFile
  parserExists : Bool
  pkbFiles : Option (List String)
  pkbExtract : Except Unit (List (List (String × String)))
  deriving Repr

/-- Result of `fs.readFile(missFile, 'utf-8')`:
file content, `ENOENT`, or any other I/O error. -/
inductive MissRead where
  | content (s : String)
  | enoent
  | ioError
  deriving Repr, DecidableEq

/-- The filesystem as seen by `init`: the platforms directory listing
(`none` models `fs.readdir(platformsDir)` rejecting) and the ledger file. -/
structure Fs where
  rootItems : Option (List PlatformDir)
  missFile : MissRead
  deriving Repr

/-- `add(domain, parser)` lifted to `Except`: a thrown TypeError inside an
`async` method rejects the enclosing promise. -/
def addE (s : ParserList) (domain : String) (parser : Parser) : Except String ParserList :=
  match add s domain parser with
  | some s' => Except.ok s'
  | none => Except.error "TypeError"

/-- `addDomainsOf(platform)` from `src/lib/parserlist.js`.  Any rejected
`await` (manifest read, `JSON.parse`, parser `fs.stat`, pkb `fs.readdir`,
`csvextractor` error) rejects the whole call. -/
def addDomainsOf (s : ParserList) (p : PlatformDir) : Except String ParserList := do
  let manifest ← match p.manifest with
    | ManifestFile.unreadable => Except.error ("read manifest: " ++ p.name)
    | ManifestFile.malformed => Except.error ("parse manifest: " ++ p.name)
    | ManifestFile.parsed m => Except.ok m
  if !(jsTruthy manifest.name) then return s
  if manifest.domains = none && !(jsTruthy manifest.pkbDomains) then return s
  if !p.parserExists then Except.error ("stat parser: " ++ p.name)
  let parser : Parser :=
    { file := p.name ++ "/parser.js",
      platform := manifest.name.getD "",
      platformName := manifest.longname,
      publisherName := manifest.publisher_name }
  let s ← (manifest.domains.getD []).foldlM (fun st d => addE st d parser) s
  match manifest.pkbDomains with
  | none => return s
  | some field =>
    if field = "" then return s
    else
      match p.pkbFiles with
      | none => Except.error ("readdir pkb: " ++ p.name)
      | some files =>
        let pkbFiles := files.filter matchesPkb
        if pkbFiles = [] then return s
        else
          match p.pkbExtract with
          | Except.error _ => Except.error ("extract: " ++ p.name)
          | Except.ok records =>
            records.foldlM (fun st record =>
              match mapGet record field with
              | some domain => if domain ≠ "" then addE st domain parser else Except.ok st
              | none => Except.ok st) s

/-- The stateful `lines.filter(domain => this.addMiss(domain))` of
reconciliation: each kept line is recorded as an unresolved domain before the
following lines are tested. -/
def filterAddMiss (s : ParserList) : List String → ParserList × List String
  | [] => (s, [])
  | l :: ls =>
    let r := addMiss s l
    let rec' := filterAddMiss r.1 ls
    (rec'.1, if r.2 then l :: rec'.2 else rec'.2)

/-- The ledger-reconciliation tail of `init`.  Returns the final registry state
and the sequence of `fs.writeFile(missFile, ...)` payloads, in order: a bare
header write happens first whenever the (trimmed) first line is not `domain`,
and the full rewrite `header + filtered sorted lines` always follows. -/
def reconcile (s : ParserList) (mr : MissRead) : Except String (ParserList × List String) :=
  match mr with
  | MissRead.ioError => Except.error "read miss file"
  | other =>
    let content := match other with
      | MissRead.content c => c
      | _ => ""
    let lines := splitLines content
    let firstLine := jsTrim (lines.headD "")
    let rest := lines.tail
    let fam := filterAddMiss s rest
    let sorted := sortByLower fam.2
    let finalWrite := "domain\n" ++ joinNl sorted
    if firstLine = "domain" then Except.ok (fam.1, [finalWrite])
    else Except.ok (fam.1, ["domain", finalWrite])

/-- `init()` from `src/lib/parserlist.js`: reset the maps, list the platforms
directory (a rejection here rejects `init`), drop hidden entries and the
skeleton, `stat` each remaining entry (a rejection rejects `init`), run
`addDomainsOf` on each directory strictly in order — with no `try`/`catch`, so
any per-platform rejection propagates — then reconcile the ledger. -/
def init (fs : Fs) : Except String (ParserList × List String) := do
  let s := initState
  match fs.rootItems with
  | none => Except.error "readdir platforms"
  | some items =>
    let items := items.filter (fun i => !(startsWithDot i.name) && i.name ≠ "js-parser-skeleton")
    let s ← items.foldlM (fun st it =>
      match it.stat with
      | none => Except.error ("stat: " ++ it.name)
      | some isDir => if isDir then addDomainsOf st it else Except.ok st) s
    reconcile s fs.missFile

/-! ### Concrete scenario data used by the theorems below -/

/-- Successful `add`, for building concrete registry states (each use below is
a chain of adds that provably succeeds). -/
def addD (s : ParserList) (domain : String) (parser : Parser) : ParserList :=
  (add s domain parser).getD s

/-- A parser binding of platform `P`. -/
def pP : Parser :=
  { file := "P/parser.js", platform := "P", platformName := none, publisherName := none }

/-- A parser binding of platform `Q`. -/
def pQ : Parser :=
  { file := "Q/parser.js", platform := "Q", platformName := none, publisherName := none }

/-- Registry in which `P` and `Q` both registered `d.com` and `P` alone
registered `e.com`. -/
def sPQE : ParserList :=
  addD (addD (addD initState "d.com" pP) "d.com" pQ) "e.com" pP

/-- Registry in which `P` and `Q` both registered `d.com`. -/
def sPQ : ParserList :=
  addD (addD initState "d.com" pP) "d.com" pQ

/-- Registry with the single platform `P` owning `d.com`. -/
def sOneP : ParserList :=
  addD initState "d.com" pP

/-- Registry with the single platform `P` owning `a.com`. -/
def sOneA : ParserList :=
  addD initState "a.com" pP

/-- A platform directory entry whose `manifest.json` holds unparsable JSON. -/
def badDir : PlatformDir where
  name := "aaa"
  stat := some true
  manifest := ManifestFile.malformed
  parserExists := true
  pkbFiles := some []
  pkbExtract := Except.ok []

/-- A well-formed manifest declaring the literal domain `b.com`. -/
def goodManifest : Manifest where
  name := some "bbb"
  longname := none
  publisher_name := none
  domains := some ["b.com"]
  pkbDomains := none

/-- A fully valid platform directory entry registering `b.com`. -/
def goodDir : PlatformDir where
  name := "bbb"
  stat := some true
  manifest := ManifestFile.parsed goodManifest
  parserExists := true
  pkbFiles := some []
  pkbExtract := Except.ok []

/-- The binding `addDomainsOf` builds for `goodDir`. -/
def pGood : Parser :=
  { file := "bbb/parser.js", platform := "bbb", platformName := none, publisherName := none }

/-- Platforms directory holding one broken platform followed by one valid one. -/
def fsMixed : Fs :=
  { rootItems := some [badDir, goodDir], missFile := MissRead.content "domain" }

/-- The same directory with only the valid platform. -/
def fsGood : Fs :=
  { rootItems := some [goodDir], missFile := MissRead.content "domain" }

/-! ### Specification-side notions for candidate-list bookkeeping -/

/-- Run a sequence of `add(domain, parser)` calls in order, propagating a
thrown TypeError. -/
def addSeq (s : ParserList) : List (String × Parser) → Option ParserList
  | [] => some s
  | (d, p) :: rest =>
    match add s d p with
    | some s' => addSeq s' rest
    | none => none

/-- The bindings a call sequence directs at domain `d`, in call order. -/
def bindingsFor (seq : List (String × Parser)) (d : String) : List Parser :=
  (seq.filter (fun x => x.1 == d)).map (fun x => x.2)

/-- Keep only the first binding of each platform, in order of first
appearance (`seen` holds the platforms already taken). -/
def dedupByPlatform (seen : List String) : List Parser → List Parser
  | [] => []
  | p :: ps =>
    if p.platform ∈ seen then dedupByPlatform seen ps
    else p :: dedupByPlatform (seen ++ [p.platform]) ps

/-- The platforms taken after `dedupByPlatform seen l` has processed `l`. -/
def seenAfter (seen : List String) : List Parser → List String
  | [] => seen
  | p :: ps =>
    if p.platform ∈ seen then seenAfter seen ps
    else seenAfter (seen ++ [p.platform]) ps

/-- The candidate list stored for `d` (empty when the domain is absent or
marked unresolved). -/
def candidatesOf (s : ParserList) (d : String) : List Parser :=
  match mapGet s.domains d with
  | some (DomEntry.parsers l) => l
  | _ => []

/-- Invariant tying a registry state to the `add` call sequence that built it:
every domain entry is the per-platform deduplication of the bindings directed
at it, and every platform entry owns exactly the domains it was added for. -/
def addInv (seq : List (String × Parser)) (s : ParserList) : Prop :=
  (∀ d, mapGet s.domains d =
    (if bindingsFor seq d = [] then none
     else some (DomEntry.parsers (dedupByPlatform [] (bindingsFor seq d))))) ∧
  (∀ q pe, mapGet s.platforms q = some pe →
    ∀ d, d ∈ pe.domains ↔ ∃ p, (d, p) ∈ seq ∧ p.platform = q) ∧
  (∀ q, mapGet s.platforms q = none → ∀ d p, (d, p) ∈ seq → p.platform ≠ q)

/-! ### Interleaving model of concurrent `writeMiss` callers

`writeMiss` runs on a single-threaded event loop: its synchronous prefix
(`this.missQueue.push(domain)` followed by the `length !== 1` check) is atomic,
and a running drain loop interleaves with other callers only at its `await
fs.appendFile` points.  A state records the queue, the number of `writeMiss`
invocations currently inside the `while` loop (`drainers`), the lines appended
to the ledger file so far, and the log of every domain ever enqueued. -/

structure WState where
  queue : List String
  drainers : Nat
  file : List String
  log : List String
  deriving Repr, DecidableEq

/-- The state before any `writeMiss` call. -/
def WState.start : WState := ⟨[], 0, [], []⟩

/-- The payload `fs.appendFile` receives for a domain. -/
def missLine (d : String) : String := "\n" ++ d

/-- Atomic steps of the system when every append succeeds.

`enqueue`: one `writeMiss(d)` call runs its synchronous prefix — push `d`,
then return unless the queue length is now exactly 1; the caller enters the
`while` loop (one more drainer) precisely when the queue was empty before its
push.

`drainOk`: the drain loop owner completes one iteration — read the front
domain, successfully append its line, shift it off, and re-test the loop
condition, leaving the loop (one drainer fewer) when the queue has emptied. -/
inductive WStepOk : WState → WState → Prop where
  | enqueue : ∀ (s t : WState) (d : String),
      t.queue = s.queue ++ [d] →
      t.drainers = s.drainers + (if s.queue = [] then 1 else 0) →
      t.file = s.file →
      t.log = s.log ++ [d] →
      WStepOk s t
  | drainOk : ∀ (s t : WState) (d : String) (rest : List String),
      s.queue = d :: rest →
      1 ≤ s.drainers →
      t.queue = rest →
      t.drainers = (if rest = [] then s.drainers - 1 else s.drainers) →
      t.file = s.file ++ [missLine d] →
      t.log = s.log →
      WStepOk s t

/-- Atomic steps including a failing append: the `finally` clause shifts the
front domain, nothing reaches the file, and the rethrown exception makes the
owner leave the `while` loop. -/
inductive WStepF : WState → WState → Prop where
  | ok : ∀ s t, WStepOk s t → WStepF s t
  | drainFail : ∀ (s t : WState) (d : String) (rest : List String),
      s.queue = d :: rest →
      1 ≤ s.drainers →
      t.queue = rest →
      t.drainers = s.drainers - 1 →
      t.file = s.file →
      t.log = s.log →
      WStepF s t

/-- States reachable by interleaved callers with all appends succeeding. -/
inductive ReachOk : WState → Prop where
  | start : ReachOk WState.start
  | step : ∀ s t, ReachOk s → WStepOk s t → ReachOk t

/-- States reachable when appends may also fail. -/
inductive ReachF : WState → Prop where
  | start : ReachF WState.start
  | step : ∀ s t, ReachF s → WStepF s t → ReachF t

/-! ## Theorems

### Association-list lemmas -/

@[simp] theorem mapGet_nil {β : Type} (k : String) : mapGet ([] : List (String × β)) k = none := rfl

theorem mapGet_mapSet_self {β : Type} (m : List (String × β)) (k : String) (v : β) :
    mapGet (mapSet m k v) k = some v := by
  induction m with
  | nil => simp [mapGet, mapSet]
  | cons hd tl ih =>
    obtain ⟨k', v'⟩ := hd
    by_cases h : k' = k <;> simp [mapGet, mapSet, h, ih]

theorem mapGet_mapSet_ne {β : Type} (m : List (String × β)) (k k' : String) (v : β)
    (h : k ≠ k') : mapGet (mapSet m k v) k' = mapGet m k' := by
  induction m with
  | nil => simp [mapGet, mapSet, h]
  | cons hd tl ih =>
    obtain ⟨k0, v0⟩ := hd
    by_cases h0 : k0 = k
    · subst h0
      simp [mapGet, mapSet, h]
    · simp only [mapSet, if_neg h0]
      by_cases h1 : k0 = k'
      · simp [mapGet, h1]
      · simp [mapGet, h1, ih]

theorem mapGet_mapDelete_self {β : Type} (m : List (String × β)) (k : String)
    (hm : (m.map Prod.fst).Nodup) : mapGet (mapDelete m k) k = none := by
  induction m with
  | nil => simp [mapDelete]
  | cons hd tl ih =>
    obtain ⟨k0, v0⟩ := hd
    simp only [List.map_cons, List.nodup_cons] at hm
    by_cases h0 : k0 = k
    · subst h0
      simp only [mapDelete, if_pos rfl]
      -- k no longer occurs in tl, so lookup misses
      clear ih
      induction tl with
      | nil => simp [mapGet]
      | cons hd' tl' ih' =>
        obtain ⟨k1, v1⟩ := hd'
        simp only [List.map_cons, List.mem_cons, List.nodup_cons] at hm
        have hk1 : k1 ≠ k0 := by
          intro h; exact hm.1 (Or.inl h.symm)
        simp only [mapGet, if_neg hk1]
        exact ih' ⟨fun h => hm.1 (Or.inr h), hm.2.2⟩
    · simp only [mapDelete, if_neg h0, mapGet, if_neg h0]
      exact ih hm.2

theorem mapGet_mapDelete_ne {β : Type} (m : List (String × β)) (k k' : String)
    (h : k ≠ k') : mapGet (mapDelete m k) k' = mapGet m k' := by
  induction m with
  | nil => simp [mapDelete]
  | cons hd tl ih =>
    obtain ⟨k0, v0⟩ := hd
    by_cases h0 : k0 = k
    · subst h0
      simp [mapDelete, mapGet, h]
    · simp only [mapDelete, if_neg h0]
      by_cases h1 : k0 = k'
      · simp [mapGet, h1]
      · simp [mapGet, h1, ih]

theorem mem_keys_mapDelete {β : Type} (m : List (String × β)) (k x : String)
    (h : x ∈ (mapDelete m k).map Prod.fst) : x ∈ m.map Prod.fst := by
  induction m with
  | nil => simp [mapDelete] at h
  | cons hd tl ih =>
    obtain ⟨k0, v0⟩ := hd
    by_cases h0 : k0 = k
    · simp only [mapDelete, if_pos h0] at h
      simp [h]
    · simp only [mapDelete, if_neg h0, List.map_cons, List.mem_cons] at h ⊢
      exact h.imp id ih

theorem mapDelete_keys_nodup {β : Type} (m : List (String × β)) (k : String)
    (h : (m.map Prod.fst).Nodup) : ((mapDelete m k).map Prod.fst).Nodup := by
  induction m with
  | nil => simp [mapDelete]
  | cons hd tl ih =>
    obtain ⟨k0, v0⟩ := hd
    simp only [List.map_cons, List.nodup_cons] at h
    by_cases h0 : k0 = k
    · simpa [mapDelete, h0] using h.2
    · simp only [mapDelete, if_neg h0, List.map_cons, List.nodup_cons]
      exact ⟨fun hm => h.1 (mem_keys_mapDelete tl k k0 hm), ih h.2⟩

theorem mapGet_mapDelete_none {β : Type} (m : List (String × β)) (k d : String)
    (h : mapGet m d = none) : mapGet (mapDelete m k) d = none := by
  induction m with
  | nil => simp [mapDelete]
  | cons hd tl ih =>
    obtain ⟨k0, v0⟩ := hd
    by_cases hd0 : k0 = d
    · subst hd0
      simp [mapGet] at h
    · simp only [mapGet, if_neg hd0] at h
      by_cases h0 : k0 = k
      · simpa [mapDelete, h0] using h
      · simpa [mapDelete, if_neg h0, mapGet, if_neg hd0] using ih h

theorem mapGet_foldlDelete_none {β : Type} (L : List String) (m : List (String × β))
    (d : String) (h : mapGet m d = none) :
    mapGet (L.foldl (fun acc x => mapDelete acc x) m) d = none := by
  induction L generalizing m with
  | nil => simpa using h
  | cons k L' ih => exact ih (mapDelete m k) (mapGet_mapDelete_none m k d h)

theorem mapGet_foldlDelete_mem {β : Type} (L : List String) (m : List (String × β))
    (d : String) (hnd : (m.map Prod.fst).Nodup) (hd : d ∈ L) :
    mapGet (L.foldl (fun acc x => mapDelete acc x) m) d = none := by
  induction L generalizing m with
  | nil => cases hd
  | cons k L' ih =>
    simp only [List.foldl_cons]
    by_cases hk : d = k
    · subst hk
      exact mapGet_foldlDelete_none L' (mapDelete m d) d (mapGet_mapDelete_self m d hnd)
    · have hd' : d ∈ L' := by
        rcases List.mem_cons.mp hd with h | h
        · exact absurd h hk
        · exact h
      exact ih (mapDelete m k) (mapDelete_keys_nodup m k hnd) hd'

theorem get_miss_of_none (s : ParserList) (d : String) (w : Bool)
    (h : mapGet s.domains d = none) : (get s d w).1 = DomEntry.unresolved := by
  simp [get, mapHas, h]

/-! ### Claim theorems: error propagation and the ledger drain -/

/-- C1.  Refutation at a concrete input: in `src/lib/parserlist.js` the scan
loop of `init` awaits `addDomainsOf` with no `try`/`catch`, so one platform
with a malformed manifest rejects the whole `init` call instead of being
collected as a non-fatal report, and the valid platform listed after it is
never registered; with the broken platform removed, the very same valid
platform registers `b.com` and `init` completes. -/
theorem initAbortsOnMalformedManifest :
    init fsMixed = Except.error "parse manifest: aaa" ∧
    ∃ s, init fsGood = Except.ok (s, ["domain\n"]) ∧
      mapGet s.domains "b.com" = some (DomEntry.parsers [pGood]) := by
  refine ⟨rfl, ⟨_, rfl, rfl⟩⟩

/-- C3.  Evaluation at the failing input: `get` on a never-added domain
returns `false` and enqueues one ledger write, but its negative-cache mark is
`this.domains[domain] = false` — a plain property on the Map object that
`Map.has`/`Map.get` never see — so a second `get` misses again and enqueues a
second ledger write for the same domain, contrary to the claim. -/
theorem getSecondMissEnqueuesAgain :
    (get initState "x.com" true).1 = DomEntry.unresolved ∧
    (get initState "x.com" true).2.missQueue = ["x.com"] ∧
    mapHas (get initState "x.com" true).2.domains "x.com" = false ∧
    (get (get initState "x.com" true).2 "x.com" true).1 = DomEntry.unresolved ∧
    (get (get initState "x.com" true).2 "x.com" true).2.missQueue = ["x.com", "x.com"] := by
  refine ⟨rfl, rfl, rfl, rfl, rfl⟩

/-- C5.  Evaluation at the failing input: when the first `fs.appendFile`
fails, the `finally` clause still removes the failed front element and it is
not retried, but the `try`/`finally` has no `catch`, so the exception
propagates out of the `while` loop: the run ends abnormally (`false`) with
`b.com` still queued and never appended — the drain does not continue and the
failure is not swallowed.  With successful appends the same queue drains in
order. -/
theorem drainStopsAfterFailedAppend :
    drainWriteMiss ["a.com", "b.com"] [false] [] = (["b.com"], [], false) ∧
    drainWriteMiss ["a.com", "b.com"] [true, true] []
      = ([], ["\na.com", "\nb.com"], true) := by
  exact ⟨rfl, rfl⟩

/-- C9.  Evaluation at the failing input: with one platform registered, the
`for...in` loop of `clearCachedParsers` enumerates the enumerable properties
of the Map iterator `this.platforms.values()`, of which there are none, so
the loop body runs zero times — not once per registered platform — and a
cached parser file is never evicted. -/
theorem clearCachedParsersIteratesZeroTimes :
    sOneP.platforms ≠ [] ∧
    forInKeysOfMapIterator sOneP.platforms = [] ∧
    clearCachedParsers sOneP ["P/parser.js"] = ["P/parser.js"] := by
  refine ⟨by decide, rfl, rfl⟩

/-! ### Claim theorems: `clearPlatform` -/

/-- C2 counterexample.  With `P` and `Q` co-owning `d.com` (and `P` alone
owning `e.com`), `clearPlatform("P")` deletes `d.com` from the domain map
outright, so `get("d.com", false)` afterwards returns the `false` sentinel —
not a candidate list containing `Q`'s binding as the claim states. -/
theorem clearPlatformCoownedCounterexample :
    (get (clearPlatform sPQE "P") "d.com" false).1 = DomEntry.unresolved ∧
    ¬ ∃ l : List Parser,
        (get (clearPlatform sPQE "P") "d.com" false).1 = DomEntry.parsers l ∧ pQ ∈ l := by
  refine ⟨rfl, ?_⟩
  rintro ⟨l, hl, -⟩
  rw [show (get (clearPlatform sPQE "P") "d.com" false).1 = DomEntry.unresolved from rfl] at hl
  exact DomEntry.noConfusion hl

/-- C10.  After `clearPlatform("P")` in a state where `P` and `Q` both
registered `d.com`: `Q`'s platform entry still lists `d.com` as owned even
though `d.com` was deleted from the domain map; re-adding `d.com` under `Q`'s
binding then hits the stale ownership guard, so no binding is appended (only
an empty candidate array is re-created) and the platform entries are left
unchanged, and `get("d.com", false)` returns that empty list — it resolves to
no binding even though `Q` is still registered. -/
theorem clearPlatformStaleOwnershipBlocksReadd :
    mapGet (clearPlatform sPQ "P").platforms "Q" = some ⟨pQ, ["d.com"]⟩ ∧
    mapGet (clearPlatform sPQ "P").domains "d.com" = none ∧
    (∃ s2, add (clearPlatform sPQ "P") "d.com" pQ = some s2 ∧
      mapGet s2.domains "d.com" = some (DomEntry.parsers []) ∧
      s2.platforms = (clearPlatform sPQ "P").platforms ∧
      (get s2 "d.com" false).1 = DomEntry.parsers []) := by
  refine ⟨rfl, rfl, ⟨_, rfl, rfl, rfl, rfl⟩⟩

/-- C2 amended.  `clearPlatform(P)` deletes every domain in `P`'s owned set
from the domain map — co-owned domains included — and deletes `P`'s platform
entry, so a subsequent `get(d, false)` returns the `false` sentinel for every
domain `P` owned, whether or not another platform also registered it;
`clearPlatform` of an unknown platform changes nothing.  The two `Nodup`
hypotheses are JavaScript `Map` wellformedness (a `Map` never holds a key
twice). -/
theorem clearPlatformRemovesAllOwnedDomains (s : ParserList) (P : String) (pe : PlatformEntry)
    (hnd : (s.domains.map Prod.fst).Nodup)
    (hndp : (s.platforms.map Prod.fst).Nodup)
    (hpe : mapGet s.platforms P = some pe) :
    (∀ d, d ∈ pe.domains →
      mapGet (clearPlatform s P).domains d = none ∧
      (get (clearPlatform s P) d false).1 = DomEntry.unresolved) ∧
    mapGet (clearPlatform s P).platforms P = none ∧
    (∀ R, mapGet s.platforms R = none → clearPlatform s R = s) := by
  have hcp : clearPlatform s P =
      { s with domains := pe.domains.foldl (fun m d => mapDelete m d) s.domains,
               platforms := mapDelete s.platforms P } := by
    unfold clearPlatform
    rw [hpe]
  refine ⟨?_, ?_, ?_⟩
  · intro d hd
    have hnone : mapGet (clearPlatform s P).domains d = none := by
      rw [hcp]
      exact mapGet_foldlDelete_mem pe.domains s.domains d hnd hd
    exact ⟨hnone, get_miss_of_none _ d false hnone⟩
  · rw [hcp]
    exact mapGet_mapDelete_self s.platforms P hndp
  · intro R hR
    unfold clearPlatform
    rw [hR]

/-- Witness for C2 amended: the concrete registry `sPQE` (platforms `P`, `Q`
co-owning `d.com`, `P` alone owning `e.com`). -/
theorem clearPlatformRemovesAllOwnedDomainsWitness :
    mapGet (clearPlatform sPQE "P").domains "e.com" = none ∧
    (get (clearPlatform sPQE "P") "e.com" false).1 = DomEntry.unresolved ∧
    (get (clearPlatform sPQE "P") "d.com" false).1 = DomEntry.unresolved ∧
    mapGet (clearPlatform sPQE "P").platforms "P" = none ∧
    clearPlatform sPQE "unknown" = sPQE := by
  have h := clearPlatformRemovesAllOwnedDomains sPQE "P" ⟨pP, ["d.com", "e.com"]⟩
    (by decide) (by decide) (by decide)
  exact ⟨(h.1 "e.com" (by decide)).1, (h.1 "e.com" (by decide)).2,
    (h.1 "d.com" (by decide)).2, h.2.1, h.2.2 "unknown" (by decide)⟩

/-! ### Sorting and reconciliation lemmas -/

theorem charListLe_total : ∀ a b : List Char, charListLe a b = true ∨ charListLe b a = true := by
  intro a
  induction a with
  | nil => intro b; left; rfl
  | cons x xs ih =>
    intro b
    cases b with
    | nil => right; rfl
    | cons y ys =>
      by_cases hxy : x.toNat = y.toNat
      · simp only [charListLe, if_pos hxy, if_pos hxy.symm]
        exact ih ys
      · simp only [charListLe, if_neg hxy, if_neg (Ne.symm hxy), decide_eq_true_eq]
        omega

theorem charListLe_trans : ∀ a b c : List Char,
    charListLe a b = true → charListLe b c = true → charListLe a c = true := by
  intro a
  induction a with
  | nil => intro b c _ _; rfl
  | cons x xs ih =>
    intro b c hab hbc
    cases b with
    | nil => exact absurd hab (by simp [charListLe])
    | cons y ys =>
      cases c with
      | nil => exact absurd hbc (by simp [charListLe])
      | cons z zs =>
        by_cases hxy : x.toNat = y.toNat <;> by_cases hyz : y.toNat = z.toNat
        · have hxz : x.toNat = z.toNat := hxy.trans hyz
          simp only [charListLe, if_pos hxy] at hab
          simp only [charListLe, if_pos hyz] at hbc
          simp only [charListLe, if_pos hxz]
          exact ih ys zs hab hbc
        · have hxz : x.toNat ≠ z.toNat := fun h => hyz (hxy.symm.trans h)
          simp only [charListLe, if_neg hyz, decide_eq_true_eq] at hbc
          simp only [charListLe, if_neg hxz, decide_eq_true_eq]
          omega
        · have hxz : x.toNat ≠ z.toNat := fun h => hxy (h.trans hyz.symm)
          simp only [charListLe, if_neg hxy, decide_eq_true_eq] at hab
          simp only [charListLe, if_neg hxz, decide_eq_true_eq]
          omega
        · simp only [charListLe, if_neg hxy, decide_eq_true_eq] at hab
          simp only [charListLe, if_neg hyz, decide_eq_true_eq] at hbc
          have hxz : x.toNat ≠ z.toNat := by omega
          simp only [charListLe, if_neg hxz, decide_eq_true_eq]
          omega

theorem lowerLe_total (a b : String) : lowerLe a b = true ∨ lowerLe b a = true :=
  charListLe_total _ _

theorem lowerLe_trans (a b c : String) (hab : lowerLe a b = true)
    (hbc : lowerLe b c = true) : lowerLe a c = true :=
  charListLe_trans _ _ _ hab hbc

theorem insertLower_perm (x : String) (l : List String) :
    (insertLower x l).Perm (x :: l) := by
  induction l with
  | nil => exact List.Perm.refl _
  | cons y ys ih =>
    by_cases h : lowerLe x y = true
    · simp only [insertLower, if_pos h]
      exact List.Perm.refl _
    · simp only [insertLower, if_neg h]
      exact (ih.cons y).trans (List.Perm.swap x y ys)

theorem sortByLower_perm (l : List String) : (sortByLower l).Perm l := by
  induction l with
  | nil => exact List.Perm.refl _
  | cons x xs ih =>
    exact (insertLower_perm x (sortByLower xs)).trans (ih.cons x)

theorem insertLower_sorted (x : String) (l : List String) (h : sortedLower l) :
    sortedLower (insertLower x l) := by
  induction l with
  | nil => simp [insertLower, sortedLower]
  | cons y ys ih =>
    obtain ⟨hy, hys⟩ := List.pairwise_cons.mp h
    by_cases hxy : lowerLe x y = true
    · simp only [insertLower, if_pos hxy, sortedLower]
      refine List.Pairwise.cons ?_ h
      intro b hb
      rcases List.mem_cons.mp hb with rfl | hb
      · exact hxy
      · exact lowerLe_trans x y b hxy (hy b hb)
    · simp only [insertLower, if_neg hxy, sortedLower]
      refine List.Pairwise.cons ?_ (ih hys)
      intro b hb
      rcases List.mem_cons.mp ((insertLower_perm x ys).mem_iff.mp hb) with h1 | h1
      · subst h1
        rcases lowerLe_total b y with h2 | h2
        · exact absurd h2 hxy
        · exact h2
      · exact hy b h1

theorem sortByLower_sorted (l : List String) : sortedLower (sortByLower l) := by
  induction l with
  | nil => exact List.Pairwise.nil
  | cons x xs ih => exact insertLower_sorted x (sortByLower xs) ih

theorem mapHas_mapSet_ne {β : Type} (m : List (String × β)) (k k' : String) (v : β)
    (h : k ≠ k') : mapHas (mapSet m k v) k' = mapHas m k' := by
  simp [mapHas, mapGet_mapSet_ne m k k' v h]

theorem filterAddMiss_keep (ls : List String) (s0 : ParserList) :
    ∀ sc : ParserList, ls.Nodup →
    (∀ x ∈ ls, mapHas sc.domains x = mapHas s0.domains x) →
    (filterAddMiss sc ls).2 = ls.filter (fun l => !(mapHas s0.domains l)) := by
  induction ls with
  | nil => intro sc _ _; rfl
  | cons l ls' ih =>
    intro sc hnodup hagree
    obtain ⟨hl, hls⟩ := List.nodup_cons.mp hnodup
    have hl0 : mapHas sc.domains l = mapHas s0.domains l := hagree l (List.mem_cons_self l ls')
    by_cases hhas : mapHas sc.domains l = true
    · have : (filterAddMiss sc (l :: ls')).2 = (filterAddMiss sc ls').2 := by
        simp [filterAddMiss, addMiss, hhas]
      rw [this, ih sc hls (fun x hx => hagree x (List.mem_cons_of_mem l hx))]
      have h0 : mapHas s0.domains l = true := hl0 ▸ hhas
      simp [List.filter_cons, h0]
    · have hfalse : mapHas sc.domains l = false := Bool.eq_false_iff.mpr hhas
      have h0 : mapHas s0.domains l = false := hl0 ▸ hfalse
      have hstep : (filterAddMiss sc (l :: ls')).2 =
          l :: (filterAddMiss { sc with domains := mapSet sc.domains l DomEntry.unresolved } ls').2 := by
        simp [filterAddMiss, addMiss, hfalse]
      rw [hstep, ih _ hls ?_]
      · simp [List.filter_cons, h0]
      · intro x hx
        have hxl : l ≠ x := fun h => hl (h ▸ hx)
        rw [show ({ sc with domains := mapSet sc.domains l DomEntry.unresolved } : ParserList).domains
            = mapSet sc.domains l DomEntry.unresolved from rfl]
        rw [mapHas_mapSet_ne sc.domains l x DomEntry.unresolved hxl]
        exact hagree x (List.mem_cons_of_mem l hx)

/-- Unfolding of `reconcile` on readable content, used by the claim theorems. -/
theorem reconcile_content_eq (s : ParserList) (content : String) :
    reconcile s (MissRead.content content) =
      (let lines := splitLines content
       let firstLine := jsTrim (lines.headD "")
       let rest := lines.tail
       let fam := filterAddMiss s rest
       let finalWrite := "domain\n" ++ joinNl (sortByLower fam.2)
       if firstLine = "domain" then Except.ok (fam.1, [finalWrite])
       else Except.ok (fam.1, ["domain", finalWrite])) := rfl

/-! ### Claim theorems: ledger reconciliation -/

/-- C6.  For a ledger whose first line is the literal header `domain` and
whose remaining lines are pairwise distinct, `init`'s reconciliation rewrites
the file as exactly the header followed by the lines not currently present in
the domain map (during `init` that map holds precisely the platform-registered
domains), sorted ascending in the case-insensitive order: the single
`fs.writeFile` payload is the header plus the filtered lines sorted, the
sorted list is ascending under `lowerLe`, and it is a permutation of the
filtered lines. -/
theorem reconcileKeepsUnregisteredSorted (s : ParserList) (content : String)
    (rest : List String)
    (hsplit : splitLines content = "domain" :: rest)
    (hnodup : rest.Nodup) :
    ∃ s', reconcile s (MissRead.content content) =
        Except.ok (s',
          ["domain\n" ++ joinNl (sortByLower (rest.filter (fun l => !(mapHas s.domains l))))]) ∧
      sortedLower (sortByLower (rest.filter (fun l => !(mapHas s.domains l)))) ∧
      (sortByLower (rest.filter (fun l => !(mapHas s.domains l)))).Perm
        (rest.filter (fun l => !(mapHas s.domains l))) := by
  have hkeep : (filterAddMiss s rest).2 = rest.filter (fun l => !(mapHas s.domains l)) :=
    filterAddMiss_keep rest s s hnodup (fun x _ => rfl)
  have h := reconcile_content_eq s content
  rw [hsplit] at h
  simp only [List.headD_cons, List.tail_cons] at h
  rw [show jsTrim "domain" = "domain" from rfl, if_pos rfl, hkeep] at h
  exact ⟨(filterAddMiss s rest).1, h, sortByLower_sorted _, sortByLower_perm _⟩

/-- Witness for C6: the spec's own example.  With `a.com` registered by a
platform and `b.com` not, reconciling the ledger
`domain / a.com / b.com` rewrites it to exactly `domain / b.com`. -/
theorem reconcileKeepsUnregisteredSortedWitness :
    ∃ s', reconcile sOneA (MissRead.content "domain\na.com\nb.com") =
      Except.ok (s', ["domain\nb.com"]) := by
  obtain ⟨s', h1, -, -⟩ := reconcileKeepsUnregisteredSorted sOneA "domain\na.com\nb.com"
    ["a.com", "b.com"] (by decide) (by decide)
  exact ⟨s', h1.trans (congrArg (fun w => Except.ok (s', w)) (by decide))⟩

/-- C7 counterexample.  A ledger whose first line is `xxx` (not the header)
and whose second line `a.com` is unregistered is *not* reset to just the
header: after the intermediate bare-header write, the unconditional final
write retains `a.com`, so the file ends up as `domain\na.com`, which differs
from `domain`. -/
theorem reconcileBadHeaderCounterexample :
    reconcile initState (MissRead.content "xxx\na.com") =
      Except.ok ({ domains := [("a.com", DomEntry.unresolved)], platforms := [],
                   missQueue := [], domainProps := [] },
                 ["domain", "domain\na.com"]) ∧
    "domain\na.com" ≠ "domain" := by
  exact ⟨rfl, by decide⟩

/-- C7 amended.  When the trimmed first line of the ledger is not the literal
header `domain` (including the empty-file case), reconciliation first writes
the bare header and then still performs the unconditional full rewrite:
header plus the retained (not currently present, deduplicated) remaining
lines in ascending case-insensitive order.  The file therefore ends as just
the header (with a trailing newline) only when no remaining line is
retained — as for an empty file. -/
theorem reconcileBadHeaderWritesHeaderThenRetained (s : ParserList)
    (content first : String) (rest : List String)
    (hsplit : splitLines content = first :: rest)
    (hbad : jsTrim first ≠ "domain")
    (hnodup : rest.Nodup) :
    ∃ s', reconcile s (MissRead.content content) =
      Except.ok (s',
        ["domain",
         "domain\n" ++ joinNl (sortByLower (rest.filter (fun l => !(mapHas s.domains l))))]) := by
  have hkeep : (filterAddMiss s rest).2 = rest.filter (fun l => !(mapHas s.domains l)) :=
    filterAddMiss_keep rest s s hnodup (fun x _ => rfl)
  have h := reconcile_content_eq s content
  rw [hsplit] at h
  simp only [List.headD_cons, List.tail_cons] at h
  rw [if_neg hbad, hkeep] at h
  exact ⟨(filterAddMiss s rest).1, h⟩

/-- Witness for C7 amended: the corrupted-header ledger `xxx / a.com` keeps
`a.com` after the header rewrite, and the empty file ends as the bare header
line with a trailing newline. -/
theorem reconcileBadHeaderWritesHeaderThenRetainedWitness :
    (∃ s', reconcile initState (MissRead.content "xxx\na.com") =
      Except.ok (s', ["domain", "domain\na.com"])) ∧
    (∃ s', reconcile initState (MissRead.content "") =
      Except.ok (s', ["domain", "domain\n"])) := by
  constructor
  · obtain ⟨s', h1⟩ := reconcileBadHeaderWritesHeaderThenRetained initState "xxx\na.com"
      "xxx" ["a.com"] (by decide) (by decide) (by decide)
    exact ⟨s', h1.trans (congrArg (fun w => Except.ok (s', w)) (by decide))⟩
  · obtain ⟨s', h1⟩ := reconcileBadHeaderWritesHeaderThenRetained initState ""
      "" [] (by decide) (by decide) (by decide)
    exact ⟨s', h1.trans (congrArg (fun w => Except.ok (s', w)) (by decide))⟩

/-! ### Candidate-list lemmas -/

theorem mem_bindingsFor (seq : List (String × Parser)) (d : String) (b : Parser) :
    b ∈ bindingsFor seq d ↔ (d, b) ∈ seq := by
  unfold bindingsFor
  simp only [List.mem_map, List.mem_filter, beq_iff_eq]
  constructor
  · rintro ⟨⟨d1, b1⟩, ⟨hmem, heq⟩, rfl⟩
    simp only at heq
    subst heq
    exact hmem
  · intro h
    exact ⟨(d, b), ⟨h, rfl⟩, rfl⟩

theorem bindingsFor_append (seq : List (String × Parser)) (d d' : String) (p : Parser) :
    bindingsFor (seq ++ [(d, p)]) d' =
      bindingsFor seq d' ++ (if d' = d then [p] else []) := by
  unfold bindingsFor
  rw [List.filter_append, List.map_append]
  by_cases h : d = d'
  · subst h
    simp [List.filter_cons]
  · simp [List.filter_cons, h, Ne.symm h]

theorem mem_seenAfter (l : List Parser) : ∀ (seen : List String) (q : String),
    q ∈ seenAfter seen l ↔ q ∈ seen ∨ ∃ b ∈ l, b.platform = q := by
  induction l with
  | nil => intro seen q; simp [seenAfter]
  | cons b bs ih =>
    intro seen q
    by_cases hb : b.platform ∈ seen
    · simp only [seenAfter, if_pos hb, ih]
      constructor
      · rintro (h | h)
        · exact Or.inl h
        · obtain ⟨b', hb', he⟩ := h
          exact Or.inr ⟨b', List.mem_cons_of_mem b hb', he⟩
      · rintro (h | h)
        · exact Or.inl h
        · obtain ⟨b', hb', he⟩ := h
          rcases List.mem_cons.mp hb' with rfl | h1
          · exact Or.inl (he ▸ hb)
          · exact Or.inr ⟨b', h1, he⟩
    · simp only [seenAfter, if_neg hb, ih, List.mem_append, List.mem_singleton]
      constructor
      · rintro ((h | h) | h)
        · exact Or.inl h
        · exact Or.inr ⟨b, List.mem_cons_self b bs, h.symm⟩
        · obtain ⟨b', hb', he⟩ := h
          exact Or.inr ⟨b', List.mem_cons_of_mem b hb', he⟩
      · rintro (h | h)
        · exact Or.inl (Or.inl h)
        · obtain ⟨b', hb', he⟩ := h
          rcases List.mem_cons.mp hb' with rfl | h1
          · exact Or.inl (Or.inr he.symm)
          · exact Or.inr ⟨b', h1, he⟩

theorem dedupByPlatform_append (l : List Parser) : ∀ (seen : List String) (p : Parser),
    dedupByPlatform seen (l ++ [p]) =
      dedupByPlatform seen l ++
        (if p.platform ∈ seenAfter seen l then [] else [p]) := by
  induction l with
  | nil =>
    intro seen p
    simp [dedupByPlatform, seenAfter]
  | cons b bs ih =>
    intro seen p
    by_cases hb : b.platform ∈ seen
    · simp only [List.cons_append, dedupByPlatform, if_pos hb, seenAfter]
      exact ih seen p
    · simp only [List.cons_append, dedupByPlatform, if_neg hb, seenAfter, List.cons_append]
      exact congrArg (b :: ·) (ih (seen ++ [b.platform]) p)

theorem dedupByPlatform_nodup (l : List Parser) : ∀ seen : List String,
    ((dedupByPlatform seen l).map Parser.platform).Nodup ∧
    ∀ b ∈ dedupByPlatform seen l, b.platform ∉ seen := by
  induction l with
  | nil => intro seen; simp [dedupByPlatform]
  | cons b bs ih =>
    intro seen
    by_cases hb : b.platform ∈ seen
    · simp only [dedupByPlatform, if_pos hb]
      exact ih seen
    · simp only [dedupByPlatform, if_neg hb, List.map_cons, List.nodup_cons]
      obtain ⟨h1, h2⟩ := ih (seen ++ [b.platform])
      refine ⟨⟨?_, h1⟩, ?_⟩
      · intro hmem
        obtain ⟨b', hb', heq⟩ := List.mem_map.mp hmem
        exact h2 b' hb' (by simp [heq])
      · intro b' hb'
        rcases List.mem_cons.mp hb' with rfl | h
        · exact hb
        · exact fun hmem => h2 b' h (List.mem_append_left _ hmem)

/-- Unfolding of `add` once the two ensure-present steps and the two lookups
are known. -/
theorem add_eq_of (s : ParserList) (d : String) (p : Parser)
    (domsV : List (String × DomEntry)) (platsV : List (String × PlatformEntry))
    (pe' : PlatformEntry) (L : List Parser)
    (hdoms : (if mapHas s.domains d then s.domains
              else mapSet s.domains d (DomEntry.parsers [])) = domsV)
    (hplats : (if mapHas s.platforms p.platform then s.platforms
               else mapSet s.platforms p.platform ⟨p, []⟩) = platsV)
    (hgetp : mapGet platsV p.platform = some pe')
    (hgetd : mapGet domsV d = some (DomEntry.parsers L)) :
    add s d p =
      (if pe'.domains.contains d then
        some { s with domains := domsV, platforms := platsV }
      else
        some { s with
          domains := mapSet domsV d (DomEntry.parsers (L ++ [p])),
          platforms := mapSet platsV p.platform ⟨pe'.parser, pe'.domains ++ [d]⟩ }) := by
  unfold add
  simp only [hdoms, hplats, hgetp, hgetd]

theorem addInv_add (seq : List (String × Parser)) (s : ParserList) (d : String) (p : Parser)
    (h : addInv seq s) :
    ∃ s', add s d p = some s' ∧ addInv (seq ++ [(d, p)]) s' := by
  obtain ⟨hdoms, hplats, hnoplat⟩ := h
  -- the ensured domains map
  have hdomsV : ∃ domsV,
      (if mapHas s.domains d then s.domains
       else mapSet s.domains d (DomEntry.parsers [])) = domsV ∧
      mapGet domsV d = some (DomEntry.parsers (dedupByPlatform [] (bindingsFor seq d))) ∧
      (∀ d', d' ≠ d → mapGet domsV d' = mapGet s.domains d') := by
    by_cases hBe : bindingsFor seq d = []
    · have hnone : mapGet s.domains d = none := by rw [hdoms d, if_pos hBe]
      have hhas : mapHas s.domains d = false := by simp [mapHas, hnone]
      refine ⟨mapSet s.domains d (DomEntry.parsers []), by simp [hhas], ?_, ?_⟩
      · rw [mapGet_mapSet_self, hBe]
        rfl
      · intro d' hne
        exact mapGet_mapSet_ne s.domains d d' _ (fun hh => hne hh.symm)
    · have hsome : mapGet s.domains d =
          some (DomEntry.parsers (dedupByPlatform [] (bindingsFor seq d))) := by
        rw [hdoms d, if_neg hBe]
      have hhas : mapHas s.domains d = true := by simp [mapHas, hsome]
      exact ⟨s.domains, by simp [hhas], hsome, fun d' _ => rfl⟩
  -- the ensured platforms map
  have hplatsV : ∃ platsV pe',
      (if mapHas s.platforms p.platform then s.platforms
       else mapSet s.platforms p.platform ⟨p, []⟩) = platsV ∧
      mapGet platsV p.platform = some pe' ∧
      (∀ q', q' ≠ p.platform → mapGet platsV q' = mapGet s.platforms q') ∧
      (∀ d', d' ∈ pe'.domains ↔ ∃ p', (d', p') ∈ seq ∧ p'.platform = p.platform) := by
    cases hq : mapGet s.platforms p.platform with
    | some pe =>
      have hhas : mapHas s.platforms p.platform = true := by simp [mapHas, hq]
      exact ⟨s.platforms, pe, by simp [hhas], hq, fun _ _ => rfl, hplats p.platform pe hq⟩
    | none =>
      have hhas : mapHas s.platforms p.platform = false := by simp [mapHas, hq]
      refine ⟨mapSet s.platforms p.platform ⟨p, []⟩, ⟨p, []⟩, by simp [hhas],
        mapGet_mapSet_self s.platforms p.platform _, ?_, ?_⟩
      · intro q' hne
        exact mapGet_mapSet_ne s.platforms p.platform q' _ (fun hh => hne hh.symm)
      · intro d'
        constructor
        · intro hm
          exact absurd hm (by simp)
        · rintro ⟨p', hmem, hpf⟩
          exact absurd hpf (hnoplat p.platform hq d' p' hmem)
  obtain ⟨domsV, hdv, hdvget, hdvother⟩ := hdomsV
  obtain ⟨platsV, pe', hpv, hpvget, hpvother, hown⟩ := hplatsV
  have hadd := add_eq_of s d p domsV platsV pe' (dedupByPlatform [] (bindingsFor seq d))
    hdv hpv hpvget hdvget
  by_cases hc : pe'.domains.contains d
  · -- the platform already owns the domain: the push and the Set add are skipped
    have hcm : d ∈ pe'.domains := by simpa using hc
    refine ⟨{ s with domains := domsV, platforms := platsV }, by rw [hadd, if_pos hc], ?_, ?_, ?_⟩
    · intro d'
      dsimp only
      rw [bindingsFor_append seq d d' p]
      by_cases hdd : d' = d
      · subst hdd
        rw [if_pos rfl]
        rw [if_neg (by simp : ¬(bindingsFor seq d' ++ [p] = [])),
          dedupByPlatform_append (bindingsFor seq d') [] p]
        have hseen : p.platform ∈ seenAfter [] (bindingsFor seq d') := by
          rw [mem_seenAfter]
          obtain ⟨p', hmem, hpf⟩ := (hown d').mp hcm
          exact Or.inr ⟨p', (mem_bindingsFor seq d' p').mpr hmem, hpf⟩
        rw [if_pos hseen]
        simpa using hdvget
      · simp only [if_neg hdd, List.append_nil]
        rw [hdvother d' hdd]
        exact hdoms d'
    · intro q' pe'' hget'' d'
      dsimp only at hget''
      by_cases hqq : q' = p.platform
      · subst hqq
        rw [hpvget] at hget''
        have hpe : pe'' = pe' := (Option.some.inj hget'').symm
        subst hpe
        constructor
        · intro hm
          obtain ⟨p', h1, h2⟩ := (hown d').mp hm
          exact ⟨p', List.mem_append_left _ h1, h2⟩
        · rintro ⟨p', hmem, hpf⟩
          rcases List.mem_append.mp hmem with h1 | h1
          · exact (hown d').mpr ⟨p', h1, hpf⟩
          · simp only [List.mem_singleton, Prod.mk.injEq] at h1
            obtain ⟨rfl, rfl⟩ := h1
            exact hcm
      · rw [hpvother q' hqq] at hget''
        have hiff := hplats q' pe'' hget''
        constructor
        · intro hm
          obtain ⟨p', h1, h2⟩ := (hiff d').mp hm
          exact ⟨p', List.mem_append_left _ h1, h2⟩
        · rintro ⟨p', hmem, hpf⟩
          rcases List.mem_append.mp hmem with h1 | h1
          · exact (hiff d').mpr ⟨p', h1, hpf⟩
          · simp only [List.mem_singleton, Prod.mk.injEq] at h1
            obtain ⟨rfl, rfl⟩ := h1
            exact absurd hpf.symm hqq
    · intro q' hnone' d' p' hmem
      dsimp only at hnone'
      have hne : q' ≠ p.platform := by
        intro hh
        rw [hh, hpvget] at hnone'
        exact Option.noConfusion hnone'
      rw [hpvother q' hne] at hnone'
      rcases List.mem_append.mp hmem with h1 | h1
      · exact hnoplat q' hnone' d' p' h1
      · simp only [List.mem_singleton, Prod.mk.injEq] at h1
        obtain ⟨rfl, rfl⟩ := h1
        exact fun hh => hne hh.symm
  · -- new ownership: the binding is pushed and the domain recorded as owned
    have hcm : d ∉ pe'.domains := by simpa using hc
    refine ⟨{ s with
        domains := mapSet domsV d
          (DomEntry.parsers (dedupByPlatform [] (bindingsFor seq d) ++ [p])),
        platforms := mapSet platsV p.platform ⟨pe'.parser, pe'.domains ++ [d]⟩ },
      by rw [hadd, if_neg hc], ?_, ?_, ?_⟩
    · intro d'
      rw [bindingsFor_append seq d d' p]
      by_cases hdd : d' = d
      · subst hdd
        rw [if_pos rfl]
        rw [if_neg (by simp : ¬(bindingsFor seq d' ++ [p] = [])),
          dedupByPlatform_append (bindingsFor seq d') [] p]
        have hseen : p.platform ∉ seenAfter [] (bindingsFor seq d') := by
          rw [mem_seenAfter]
          rintro (hin | ⟨b, hb, hbe⟩)
          · simp at hin
          · exact hcm ((hown d').mpr ⟨b, (mem_bindingsFor seq d' b).mp hb, hbe⟩)
        rw [if_neg hseen]
        exact mapGet_mapSet_self domsV d' _
      · simp only [if_neg hdd, List.append_nil]
        rw [mapGet_mapSet_ne domsV d d' _ (fun hh => hdd hh.symm), hdvother d' hdd]
        exact hdoms d'
    · intro q' pe'' hget'' d'
      dsimp only at hget''
      by_cases hqq : q' = p.platform
      · subst hqq
        rw [mapGet_mapSet_self platsV p.platform _] at hget''
        have hpe : pe'' = ⟨pe'.parser, pe'.domains ++ [d]⟩ := (Option.some.inj hget'').symm
        subst hpe
        constructor
        · intro hm
          rcases List.mem_append.mp hm with h1 | h1
          · obtain ⟨p', ha, hbq⟩ := (hown d').mp h1
            exact ⟨p', List.mem_append_left _ ha, hbq⟩
          · simp only [List.mem_singleton] at h1
            subst h1
            exact ⟨p, List.mem_append_right _ (by simp), rfl⟩
        · rintro ⟨p', hmem, hpf⟩
          rcases List.mem_append.mp hmem with h1 | h1
          · exact List.mem_append_left _ ((hown d').mpr ⟨p', h1, hpf⟩)
          · simp only [List.mem_singleton, Prod.mk.injEq] at h1
            obtain ⟨rfl, rfl⟩ := h1
            exact List.mem_append_right _ (by simp)
      · rw [mapGet_mapSet_ne platsV p.platform q' _ (fun hh => hqq hh.symm),
          hpvother q' hqq] at hget''
        have hiff := hplats q' pe'' hget''
        constructor
        · intro hm
          obtain ⟨p', h1, h2⟩ := (hiff d').mp hm
          exact ⟨p', List.mem_append_left _ h1, h2⟩
        · rintro ⟨p', hmem, hpf⟩
          rcases List.mem_append.mp hmem with h1 | h1
          · exact (hiff d').mpr ⟨p', h1, hpf⟩
          · simp only [List.mem_singleton, Prod.mk.injEq] at h1
            obtain ⟨rfl, rfl⟩ := h1
            exact absurd hpf.symm hqq
    · intro q' hnone' d' p' hmem
      dsimp only at hnone'
      have hne : q' ≠ p.platform := by
        intro hh
        rw [hh, mapGet_mapSet_self platsV p.platform _] at hnone'
        exact Option.noConfusion hnone'
      rw [mapGet_mapSet_ne platsV p.platform q' _ (fun hh => hne hh.symm),
        hpvother q' hne] at hnone'
      rcases List.mem_append.mp hmem with h1 | h1
      · exact hnoplat q' hnone' d' p' h1
      · simp only [List.mem_singleton, Prod.mk.injEq] at h1
        obtain ⟨rfl, rfl⟩ := h1
        exact fun hh => hne hh.symm

theorem addInv_init : addInv [] initState := by
  refine ⟨?_, ?_, ?_⟩
  · intro d
    simp [initState, bindingsFor]
  · intro q pe hq
    simp [initState] at hq
  · intro q _ d p hmem
    simp at hmem

theorem addSeq_inv (seq : List (String × Parser)) :
    ∀ (pre : List (String × Parser)) (s : ParserList), addInv pre s →
    ∃ s', addSeq s seq = some s' ∧ addInv (pre ++ seq) s' := by
  induction seq with
  | nil =>
    intro pre s h
    exact ⟨s, rfl, by simpa using h⟩
  | cons dp rest ih =>
    obtain ⟨d, p⟩ := dp
    intro pre s h
    obtain ⟨s1, hadd, h1⟩ := addInv_add pre s d p h
    obtain ⟨s', hrest, h'⟩ := ih (pre ++ [(d, p)]) s1 h1
    refine ⟨s', ?_, ?_⟩
    · simp only [addSeq, hadd]
      exact hrest
    · simpa [List.append_assoc] using h'

/-! ### Claim theorem: `add` keeps ordered per-platform deduplicated lists -/

/-- C4.  For every sequence of `add(domain, binding)` calls from a fresh
registry, every call succeeds and each domain's candidate list is exactly the
per-platform deduplication, in first-registration order, of the bindings
directed at that domain — one binding per distinct platform (the platform
names in the list are pairwise distinct).  In particular re-adding the same
`(domain, platform)` pair leaves the list unchanged in length, and two
distinct platforms registering the same domain yield a list of length 2 in
registration order. -/
theorem addCandidatesDedupedByPlatformInOrder (seq : List (String × Parser)) (d : String) :
    ∃ s, addSeq initState seq = some s ∧
      candidatesOf s d = dedupByPlatform [] (bindingsFor seq d) ∧
      ((candidatesOf s d).map Parser.platform).Nodup := by
  obtain ⟨s, hseq, hinv⟩ := addSeq_inv seq [] initState addInv_init
  rw [List.nil_append] at hinv
  have hc : candidatesOf s d = dedupByPlatform [] (bindingsFor seq d) := by
    unfold candidatesOf
    rw [hinv.1 d]
    by_cases hB : bindingsFor seq d = []
    · rw [if_pos hB, hB]
      rfl
    · rw [if_neg hB]
  exact ⟨s, hseq, hc, hc ▸ (dedupByPlatform_nodup (bindingsFor seq d) []).1⟩

/-! ### Single-writer lemmas for `writeMiss` -/

theorem reachOk_reachF (s : WState) (h : ReachOk s) : ReachF s := by
  induction h with
  | start => exact ReachF.start
  | step s t _ hstep ih => exact ReachF.step s t ih (WStepF.ok s t hstep)

theorem reachOk_inv (s : WState) (h : ReachOk s) :
    s.drainers ≤ 1 ∧ (s.drainers = 1 ↔ s.queue ≠ []) ∧
    s.file ++ s.queue.map missLine = s.log.map missLine := by
  induction h with
  | start => simp [WState.start]
  | step s t hs hstep ih =>
    obtain ⟨hle, hiff, hfile⟩ := ih
    cases hstep with
    | enqueue d hq hd hf hl =>
      by_cases hqe : s.queue = []
      · have hz : s.drainers = 0 := by
          rcases Nat.lt_or_ge s.drainers 1 with h1 | h1
          · omega
          · exfalso
            exact (hiff.mp (by omega)) hqe
        refine ⟨by rw [hd, hz, if_pos hqe], ?_, ?_⟩
        · rw [hd, hz, if_pos hqe, hq]
          simp
        · have hfile' : s.file = s.log.map missLine := by
            rw [hqe] at hfile
            simpa using hfile
          rw [hf, hl, hq, hqe, hfile']
          simp
      · have ho : s.drainers = 1 := hiff.mpr hqe
        refine ⟨by rw [hd, if_neg hqe]; omega, ?_, ?_⟩
        · rw [hd, if_neg hqe, hq, ho]
          simp
        · rw [hf, hl, hq]
          rw [List.map_append, List.map_append, ← List.append_assoc, hfile]
    | drainOk d rest hq hge htq htd htf htl =>
      have ho : s.drainers = 1 := by omega
      refine ⟨?_, ?_, ?_⟩
      · rw [htd]
        by_cases hre : rest = [] <;> simp [hre] <;> omega
      · rw [htd, htq, ho]
        by_cases hre : rest = [] <;> simp [hre]
      · rw [htf, htl, htq, ← hfile, hq]
        simp [missLine]

theorem reachF_excl (s : WState) (h : ReachF s) :
    s.drainers ≤ 1 ∧ (s.drainers = 1 → s.queue ≠ []) := by
  induction h with
  | start => simp [WState.start]
  | step s t hs hstep ih =>
    obtain ⟨hle, himp⟩ := ih
    cases hstep with
    | ok hok =>
      cases hok with
      | enqueue d hq hd hf hl =>
        by_cases hqe : s.queue = []
        · have hz : s.drainers = 0 := by
            rcases Nat.lt_or_ge s.drainers 1 with h1 | h1
            · omega
            · exact absurd hqe (himp (by omega))
          exact ⟨by rw [hd, hz, if_pos hqe], fun _ => by rw [hq]; simp⟩
        · exact ⟨by rw [hd, if_neg hqe]; omega, fun _ => by rw [hq]; simp⟩
      | drainOk d rest hq hge htq htd htf htl =>
        refine ⟨?_, ?_⟩
        · rw [htd]
          by_cases hre : rest = [] <;> simp [hre] <;> omega
        · intro h1
          rw [htd] at h1
          rw [htq]
          by_cases hre : rest = []
          · rw [if_pos hre] at h1
            omega
          · exact hre
    | drainFail d rest hq hge htq htd htf htl =>
      refine ⟨by omega, ?_⟩
      intro h1
      rw [htd] at h1
      omega

theorem reachOk_drains : ∀ (q : List String) (s : WState), s.queue = q → ReachOk s →
    ∃ t, ReachOk t ∧ t.queue = [] ∧ t.log = s.log ∧ t.file = s.log.map missLine := by
  intro q
  induction q with
  | nil =>
    intro s hq hs
    obtain ⟨-, -, hfile⟩ := reachOk_inv s hs
    rw [hq] at hfile
    simp only [List.map_nil, List.append_nil] at hfile
    exact ⟨s, hs, hq, rfl, hfile⟩
  | cons d rest ih =>
    intro s hq hs
    obtain ⟨hle, hiff, -⟩ := reachOk_inv s hs
    have ho : 1 ≤ s.drainers := by
      have := hiff.mpr (by rw [hq]; simp)
      omega
    have hstep : WStepOk s ⟨rest, (if rest = [] then s.drainers - 1 else s.drainers),
        s.file ++ [missLine d], s.log⟩ :=
      WStepOk.drainOk s _ d rest hq ho rfl rfl rfl rfl
    have hreach := ReachOk.step s _ hs hstep
    obtain ⟨t, ht, htq, htl, htf⟩ := ih _ rfl hreach
    exact ⟨t, ht, htq, htl, htf⟩

/-! ### Claim theorem: the single-writer drain protocol -/

/-- C8.  In the interleaving model of `writeMiss`: (1) in every reachable
state — append failures allowed — at most one `writeMiss` invocation is
inside the drain loop, so there is at most one in-flight append, because a
caller becomes the drainer only when its push made the queue length exactly 1
and every other caller returns at once; (2) as long as appends succeed, a
drainer exists exactly while the queue is non-empty, and the ledger file plus
the pending queue always equal the full enqueue log in order — every enqueued
domain is appended at most once, as one complete line, in enqueue order; and
(3) from any reachable state the active drain loop empties the queue, after
which the file holds exactly every enqueued domain, once each, in enqueue
order. -/
theorem writeMissSingleWriterExactlyOnce :
    (∀ s, ReachF s → s.drainers ≤ 1) ∧
    (∀ s, ReachOk s → (s.drainers = 1 ↔ s.queue ≠ []) ∧
      s.file ++ s.queue.map missLine = s.log.map missLine) ∧
    (∀ s, ReachOk s → ∃ t, ReachOk t ∧ t.queue = [] ∧ t.log = s.log ∧
      t.file = s.log.map missLine) :=
  ⟨fun s h => (reachF_excl s h).1,
   fun s h => ⟨(reachOk_inv s h).2.1, (reachOk_inv s h).2.2⟩,
   fun s h => reachOk_drains s.queue s rfl h⟩

/-- Witness for C8: the concrete trace enqueue `x.com`, enqueue `y.com`
(while the first caller's drain loop is active), then two successful drain
iterations; the theorem is applied at the fully drained end state. -/
theorem writeMissSingleWriterExactlyOnceWitness :
    (⟨[], 0, ["\nx.com", "\ny.com"], ["x.com", "y.com"]⟩ : WState).drainers ≤ 1 ∧
    (⟨[], 0, ["\nx.com", "\ny.com"], ["x.com", "y.com"]⟩ : WState).file ++
      (⟨[], 0, ["\nx.com", "\ny.com"], ["x.com", "y.com"]⟩ : WState).queue.map missLine =
      (⟨[], 0, ["\nx.com", "\ny.com"], ["x.com", "y.com"]⟩ : WState).log.map missLine := by
  have h1 : ReachOk (⟨["x.com"], 1, [], ["x.com"]⟩ : WState) :=
    ReachOk.step _ _ ReachOk.start
      (WStepOk.enqueue _ _ "x.com" (by decide) (by decide) (by decide) (by decide))
  have h2 : ReachOk (⟨["x.com", "y.com"], 1, [], ["x.com", "y.com"]⟩ : WState) :=
    ReachOk.step _ _ h1
      (WStepOk.enqueue _ _ "y.com" (by decide) (by decide) (by decide) (by decide))
  have h3 : ReachOk (⟨["y.com"], 1, ["\nx.com"], ["x.com", "y.com"]⟩ : WState) :=
    ReachOk.step _ _ h2
      (WStepOk.drainOk _ _ "x.com" ["y.com"] (by decide) (by decide) (by decide)
        (by decide) (by decide) (by decide))
  have h4 : ReachOk (⟨[], 0, ["\nx.com", "\ny.com"], ["x.com", "y.com"]⟩ : WState) :=
    ReachOk.step _ _ h3
      (WStepOk.drainOk _ _ "y.com" [] (by decide) (by decide) (by decide)
        (by decide) (by decide) (by decide))
  exact ⟨writeMissSingleWriterExactlyOnce.1 _ (reachOk_reachF _ h4),
    (writeMissSingleWriterExactlyOnce.2.1 _ h4).2⟩

end ParserListV